import Mathlib

/-!
Verification development for the yahs Hi-C scaffolding driver (yahs.c).

The C source is shallowly embedded: C `double` values are modelled as
rationals (`ℚ`), machine integers as `Nat`/`Int` (no arithmetic here comes
near an overflow boundary except where noted), and the arc array of the
scaffolding graph as a `List` of arc records.  Functions from translation
units that are not part of the sources under scrutiny (graph.c, asset.c,
link.c) are either taken as opaque parameters or modelled from the
specification, as indicated by their doc comments.
-/

/-- A directed arc of the scaffolding graph (`graph_arc_t`, graph.h).
`v` and `w` are the oriented node ids (`sequence_id << 1 | end_bit`,
written here as `2 * id + bit`), `linkId` is the paired-arc identifier
shared by the two mated arcs of one bidirected edge, and `wt` is the
weight (a C `double`, modelled as a rational). -/
structure GraphArc where
  v : Nat
  w : Nat
  linkId : Nat
  wt : ℚ
  deriving DecidableEq, Repr

/-- One record of the inter-scaffold link matrix (`inter_link_t`, link.h),
restricted to the fields read by `build_graph_from_links`: the two
sequence ids `c0`, `c1`, the total link count `n`, the bin-pair count
`n0`, the orientation bitmask `linkt` (low four bits), and the four
normalized scores `norms[0..3]`. -/
structure InterLink where
  c0 : Nat
  c1 : Nat
  n : Nat
  n0 : Nat
  linkt : Nat
  norms : List ℚ
  deriving DecidableEq, Repr

/-- Modelled from the spec: `graph_add_arc` lives in graph.c, which is not
among the sources under scrutiny.  Per the spec, "Each undirected scoring
edge is stored as two directed arcs that share a paired arc identifier";
the function appends an arc to the arc array, and a `link_id` argument of
`-1` (here `none`) assigns a fresh identifier, namely the index of the
newly appended arc, while an explicit identifier is reused as given. -/
def graph_add_arc (arcs : List GraphArc) (v w : Nat) (linkId : Option Nat) (wt : ℚ) :
    List GraphArc :=
  arcs ++ [{ v := v, w := w, linkId := linkId.getD arcs.length, wt := wt }]

/-- The two mated `graph_add_arc` calls of `build_graph_from_links`
(yahs.c): `graph_add_arc(g, c0<<1|j>>1, c1<<1|(j&1), -1, 0, norm)`
followed by `graph_add_arc(g, c1<<1|!(j&1), c0<<1|!(j>>1), arc->link_id,
0, norm)`.  Since the low bit of `c<<1` is clear, `c<<1|b = 2*c + b`; for
`b` a 0/1 value, `!b = 1 - b`.  The first call assigns the fresh paired
identifier `arcs.length`, which the second call reuses. -/
def addBucketArcs (arcs : List GraphArc) (c0 c1 j : Nat) (norm : ℚ) : List GraphArc :=
  let arcs1 := graph_add_arc arcs (2 * c0 + j / 2) (2 * c1 + j % 2) none norm
  graph_add_arc arcs1 (2 * c1 + (1 - j % 2)) (2 * c0 + (1 - j / 2)) (some arcs.length) norm

/-- Body of the `for (j = 0; j < 4; ++j)` loop of `build_graph_from_links`:
bucket `j` is considered when bit `j` of `link->linkt` is set
(`1 << j & t`); its score must reach `min_norm`, and is then rejected by
the quality-limit filter when `norm < qla`. -/
def processBucket (minNorm qla : ℚ) (link : InterLink) (arcs : List GraphArc) (j : Nat) :
    List GraphArc :=
  if Nat.testBit link.linkt j then
    if minNorm ≤ link.norms.getD j 0 then
      if link.norms.getD j 0 < qla then arcs
      else addBucketArcs arcs link.c0 link.c1 j (link.norms.getD j 0)
    else arcs
  else arcs

/-- Per-link body of `build_graph_from_links`: records with `n == 0` or an
empty orientation mask are skipped; otherwise
`qla = qbinom(.99, link->n0, la, 1, 0) / link->n0` and the four
orientation buckets are processed in order.  `qb` is the binomial
quantile `qbinom` (asset.c, not among the sources under scrutiny), taken
as an opaque parameter; its two constant C arguments (`1, 0`) are
absorbed. -/
def processLink (qb : ℚ → Nat → ℚ → ℚ) (minNorm la : ℚ) (arcs : List GraphArc)
    (link : InterLink) : List GraphArc :=
  if link.n = 0 then arcs
  else if link.linkt = 0 then arcs
  else
    let qla := qb (99 / 100) link.n0 la / (link.n0 : ℚ)
    [0, 1, 2, 3].foldl (processBucket minNorm qla link) arcs

/-- `build_graph_from_links` (yahs.c): fold the per-link processing over
the records of the inter-link matrix, starting from the empty arc array
of `graph_init()`.  The trailing `graph_arc_sort` / `graph_arc_index`
calls (graph.c) permute and index the arc array without adding or
removing arcs, so the membership-based properties proved below are
unaffected and they are not modelled. -/
def build_graph_from_links (qb : ℚ → Nat → ℚ → ℚ) (links : List InterLink)
    (minNorm la : ℚ) : List GraphArc :=
  links.foldl (processLink qb minNorm la) []

/-- Node complement: `complement(x) = x XOR 1` flips the orientation bit. -/
def complNode (x : Nat) : Nat := x ^^^ 1

/-- Arc `b` is the mate of arc `a`: it runs from the complement of the
head of `a` to the complement of its tail, with the same weight and the
same paired identifier. -/
def isMate (b a : GraphArc) : Prop :=
  b.v = complNode a.w ∧ b.w = complNode a.v ∧ b.wt = a.wt ∧ b.linkId = a.linkId

/-- The mated-arc symmetry invariant over an arc array. -/
def mateSymmetry (arcs : List GraphArc) : Prop :=
  ∀ a ∈ arcs, ∃ b ∈ arcs, isMate b a

/-- Forward arc of bucket `j` for sequence pair `(c0, c1)`: the first of
the two mated `graph_add_arc` calls, with paired identifier `base`. -/
def fwdArc (c0 c1 j : Nat) (norm : ℚ) (base : Nat) : GraphArc :=
  { v := 2 * c0 + j / 2, w := 2 * c1 + j % 2, linkId := base, wt := norm }

/-- Backward (mate) arc of bucket `j`: the second `graph_add_arc` call. -/
def bwdArc (c0 c1 j : Nat) (norm : ℚ) (base : Nat) : GraphArc :=
  { v := 2 * c1 + (1 - j % 2), w := 2 * c0 + (1 - j / 2), linkId := base, wt := norm }

/-- Concrete binomial-quantile stand-in used by witnesses. -/
def qbW : ℚ → Nat → ℚ → ℚ := fun _ _ _ => 0

/-- Concrete inter-link record used by witnesses: pair (0, 1), five links,
four bin pairs, only bucket 0 flagged, score 1 in bucket 0. -/
def linkW : InterLink :=
  { c0 := 0, c1 := 1, n := 5, n0 := 4, linkt := 1, norms := [1, 0, 0, 0] }

/-- The graph operations `run_scaffolding` composes.  The trim functions
and the arc counter `g->n_arc` live in graph.c, which is not among the
sources under scrutiny, so they are abstract here: `run_scaffolding`
itself only calls them in a fixed order and reads `narc`. -/
structure GraphOps (α : Type) where
  narc : α → Nat
  simpleFilter : α → α
  trimTips : α → α
  trimBlunts : α → α
  trimRepeats : α → α
  trimTransitive : α → α
  popBubbles : α → α
  popUndirected : α → α
  trimWeak : α → α
  trimSelfLoops : α → α
  trimAmbiguous : α → α

/-- One pass of the pruning cascade in the `while (1)` loop of
`run_scaffolding` (yahs.c): `trim_graph_simple_filter(g, .1, .7, .1, 0)`,
`trim_graph_tips`, `trim_graph_blunts`, `trim_graph_repeats`,
`trim_graph_transitive_edges`, `trim_graph_pop_bubbles`,
`trim_graph_pop_undirected`, `trim_graph_weak_edges`,
`trim_graph_self_loops`, applied in exactly that order. -/
def prunePass {α : Type} (ops : GraphOps α) (g : α) : α :=
  ops.trimSelfLoops (ops.trimWeak (ops.popUndirected (ops.popBubbles (ops.trimTransitive
    (ops.trimRepeats (ops.trimBlunts (ops.trimTips (ops.simpleFilter g))))))))

/-- The `while (1)` loop of `run_scaffolding`: run a pass, compare the
new `g->n_arc` with the count recorded before the pass, stop when they
are equal, repeat otherwise.  `fuel` is only a structural recursion
bound; since the trim functions never add arcs, `narc g + 1` passes
always suffice (the loop body is entered at least once, as in the C). -/
def pruneLoop {α : Type} (ops : GraphOps α) : Nat → α → α
  | 0, g => g
  | fuel + 1, g =>
    if ops.narc (prunePass ops g) = ops.narc g then prunePass ops g
    else pruneLoop ops fuel (prunePass ops g)

/-- The pruning stage of `run_scaffolding`: iterate the cascade to an
arc-count fixed point, then apply `trim_graph_ambiguous_edges` once. -/
def runPruning {α : Type} (ops : GraphOps α) (g : α) : α :=
  ops.trimAmbiguous (pruneLoop ops (ops.narc g + 1) g)

/-- Concrete graph-operation set used by the C3 witness: the state is a
bare arc count, the simple filter drops one arc, every other trim is the
identity. -/
def opsW : GraphOps Nat :=
  { narc := fun n => n
    simpleFilter := fun n => n - 1
    trimTips := fun n => n
    trimBlunts := fun n => n
    trimRepeats := fun n => n
    trimTransitive := fun n => n
    popBubbles := fun n => n
    popUndirected := fun n => n
    trimWeak := fun n => n
    trimSelfLoops := fun n => n
    trimAmbiguous := fun n => n }

/-- `ENOMEM_ERR` (yahs.c): round return code for a memory-budget failure. -/
def ENOMEM_ERR : Nat := 15

/-- `ENOBND_ERR` (yahs.c): round return code when `calc_norms` finds too
few bands. -/
def ENOBND_ERR : Nat := 14

/-- `MAX_N_SEQ` (yahs.c): hard ceiling on the sequence count. -/
def MAX_N_SEQ : Nat := 45000

/-- Which link matrices a `run_scaffolding` round has built. -/
inductive BuildStep where
  | intraBuilt
  | interBuilt
  deriving DecidableEq, Repr

/-- Control-flow model of `run_scaffolding` (yahs.c).  The memory
estimates `estimate_intra_link_mat_init_rss` /
`estimate_inter_link_mat_init_rss` (asset.c / link.c, not among the
sources under scrutiny) enter as the opaque integers `estIntra` and
`estInter`; with `--no-mem-check` the C stores 0 instead
(`no_mem_check? 0 : estimate_...`).  `normOk` tells whether `calc_norms`
returned non-null.  The result is the round's return code together with
the list of link matrices that were built before returning; the C checks
`(rss_limit >= 0 && rss_X > rss_limit) || rss_X < 0` before each build
and decrements `rss_limit` by `rss_intra` after the intra check. -/
def run_scaffolding_model (rssLimit : Int) (noMemCheck : Bool)
    (estIntra estInter : Int) (normOk : Bool) : Nat × List BuildStep :=
  if (0 ≤ rssLimit ∧ rssLimit < (if noMemCheck then 0 else estIntra)) ∨
      (if noMemCheck then 0 else estIntra) < 0 then (ENOMEM_ERR, [])
  else if normOk = false then (ENOBND_ERR, [BuildStep.intraBuilt])
  else if (0 ≤ rssLimit - (if noMemCheck then 0 else estIntra) ∧
        rssLimit - (if noMemCheck then 0 else estIntra) <
          (if noMemCheck then 0 else estInter)) ∨
      (if noMemCheck then 0 else estInter) < 0 then
    (ENOMEM_ERR, [BuildStep.intraBuilt])
  else (0, [BuildStep.intraBuilt, BuildStep.interBuilt])

/-- Abstract environment of the `while (r++ < nr)` scaffolding-round loop
of `run_yahs` (yahs.c).  `scaffold i layout` is the return code of
`run_scaffolding` for round `i + 1` on the current layout; `n50 layout`
is `n_stats[4]` as recomputed from the current AGP; `resolutions i` is
`resolutions[i]`.  The AGP file state `out_agp_break` is abstracted as
the list of rounds that completed successfully (it is rewritten only
after a round returning 0). -/
structure Driver where
  nr : Nat
  resolutions : Nat → Nat
  scaffold : Nat → List Nat → Nat
  n50 : List Nat → Nat

/-- The round loop of `run_yahs`, recording each attempted round together
with its `run_scaffolding` return code.  In iteration `r` (1-based): if
`n_stats[4] < resolutions[r-1] * 10` then with `rc > 0` the loop breaks,
with `rc = 0` it only warns and proceeds; a round returning 0 increments
`rc` and replaces the layout, any other return code leaves both
untouched.  `fuel` is a structural recursion bound only; `d.nr + 1` is
always enough since `r` increases every iteration. -/
def roundsLoopAux (d : Driver) : Nat → Nat → Nat → List Nat → List (Nat × Nat)
  | 0, _, _, _ => []
  | fuel + 1, r, rc, layout =>
    if d.nr < r then []
    else if d.n50 layout < d.resolutions (r - 1) * 10 ∧ 0 < rc then []
    else
      (r, d.scaffold (r - 1) layout) ::
        roundsLoopAux d fuel (r + 1)
          (if d.scaffold (r - 1) layout = 0 then rc + 1 else rc)
          (if d.scaffold (r - 1) layout = 0 then layout ++ [r] else layout)

/-- The full round loop, from round 1 with `rc = 0` and the post-break
layout. -/
def roundsLog (d : Driver) : List (Nat × Nat) :=
  roundsLoopAux d (d.nr + 1) 1 0 []

/-- Result model of `run_yahs` after the initial break stage: `nseq` is
`dict->n` of the post-break layout.  The sequence-count guard returns 1
before any round; otherwise the rounds run and `run_yahs` returns 0 and
finalizes, whatever the per-round return codes were. -/
def run_yahs_model (nseq : Nat) (d : Driver) : Nat × List (Nat × Nat) :=
  if MAX_N_SEQ < nseq then (1, [])
  else (0, roundsLog d)

/-- Driver environment whose first round finds no bands and whose second
round succeeds; used to exercise the NOBANDS path. -/
def dC4 : Driver :=
  { nr := 2
    resolutions := fun _ => 10
    scaffold := fun i _ => if i = 0 then ENOBND_ERR else 0
    n50 := fun _ => 1000000 }

/-- Driver environment every round of which runs out of memory. -/
def dW : Driver :=
  { nr := 3
    resolutions := fun _ => 10
    scaffold := fun _ _ => ENOMEM_ERR
    n50 := fun _ => 1000000 }

/-- Driver environment whose single round finds no bands. -/
def dC6 : Driver :=
  { nr := 1
    resolutions := fun _ => 10
    scaffold := fun _ _ => ENOBND_ERR
    n50 := fun _ => 1000000 }

/-- Driver environment with one successful round. -/
def dC7 : Driver :=
  { nr := 1
    resolutions := fun _ => 10
    scaffold := fun _ _ => 0
    n50 := fun _ => 1000000 }

/-- How `run_yahs` obtains its starting layout. -/
inductive InitAction where
  | contigErrorBreak
  | useInputAgp
  | noBreakFromFasta
  deriving DecidableEq, Repr

/-- The initial-layout branch of `run_yahs` (yahs.c):
`if (agp == 0 && no_contig_ec == 0)` run `contig_error_break`; otherwise
use the input AGP when one was given, else write a no-break AGP from the
FASTA index. -/
def runYahsInitialLayout (agpGiven noContigEc : Bool) : InitAction :=
  if agpGiven = false ∧ noContigEc = false then InitAction.contigErrorBreak
  else if agpGiven then InitAction.useInputAgp
  else InitAction.noBreakFromFasta

/-- The `main` option handling (yahs.c): `if (agp) no_contig_ec = 1;`
followed by the `run_yahs` initial-layout branch. -/
def mainInitialLayout (agpGiven noContigEc : Bool) : InitAction :=
  runYahsInitialLayout agpGiven (if agpGiven then true else noContigEc)

/-- Driver environment for the C10 witness: N50 far below ten times the
resolution. -/
def dC10 : Driver :=
  { nr := 5
    resolutions := fun _ => 100000
    scaffold := fun _ _ => 0
    n50 := fun _ => 50 }

/-- The `nucl_toupper` table (asset.h, not among the sources under
scrutiny), modelled as ASCII upper-casing of the alphabetic characters
`main` has already validated. -/
def nucl_toupper (c : Char) : Char := c.toUpper

/-- The per-motif validation loop of `main` (yahs.c): every character
must be alphabetic (else `exit(EXIT_FAILURE)`, modelled as `none`),
characters are upper-cased in place, and the index of the single `N` is
recorded in `n`; meeting a second `N` is fatal.  Arguments: accumulated
upper-cased prefix, current index `i`, recorded `N` index, remaining
characters. -/
def scanMotif : List Char → Nat → Option Nat → List Char → Option (List Char × Option Nat)
  | acc, _, nIdx, [] => some (acc, nIdx)
  | acc, i, nIdx, c :: cs =>
    if c.isAlpha = false then none
    else if nucl_toupper c = 'N' then
      match nIdx with
      | some _ => none
      | none => scanMotif (acc ++ [nucl_toupper c]) (i + 1) (some i) cs
    else scanMotif (acc ++ [nucl_toupper c]) (i + 1) nIdx cs

/-- The per-motif expansion of `main` (yahs.c): with an `N` recorded at
position `n`, push the four variants `pch[n] = 'A','C','G','T'` in that
order; without an `N`, push the (upper-cased) motif unchanged. -/
def processMotif (m : List Char) : Option (List (List Char)) :=
  match scanMotif [] 0 none m with
  | none => none
  | some (u, none) => some [u]
  | some (u, some n) => some [u.set n 'A', u.set n 'C', u.set n 'G', u.set n 'T']

/-- The `strtok` loop of `main` over the comma-separated motifs: variants
are pushed onto one flat list in motif order; any invalid motif is fatal
for the run. -/
def processEnzymes : List (List Char) → Option (List (List Char))
  | [] => some []
  | m :: rest =>
    match processMotif m, processEnzymes rest with
    | some vs, some rs => some (vs ++ rs)
    | _, _ => none

/-- Modelled from the spec sentence "each `N` is expanded into four
variants": the expansion that replaces every `N` independently by each of
`A`, `C`, `G`, `T` — what the claim, read literally, asserts for motifs
with any number of `N`s. -/
def specExpandMotif : List Char → List (List Char)
  | [] => [[]]
  | c :: cs =>
    if c = 'N' then
      (specExpandMotif cs).map (fun r => 'A' :: r) ++
        (specExpandMotif cs).map (fun r => 'C' :: r) ++
        (specExpandMotif cs).map (fun r => 'G' :: r) ++
        (specExpandMotif cs).map (fun r => 'T' :: r)
    else (specExpandMotif cs).map (fun r => c :: r)

theorem xor_one_of_even (c : Nat) : (2 * c) ^^^ 1 = 2 * c + 1 := by
  apply Nat.eq_of_testBit_eq
  intro i
  simp only [Nat.testBit_xor]
  cases i with
  | zero =>
    simp only [Nat.testBit_zero]
    have h0 : (2 * c) % 2 = 0 := by omega
    have h1 : (2 * c + 1) % 2 = 1 := by omega
    simp_all
  | succ n =>
    simp only [Nat.testBit_succ]
    have h1 : 2 * c / 2 = c := by omega
    have h2 : (2 * c + 1) / 2 = c := by omega
    have h3 : (1 : Nat) / 2 = 0 := by norm_num
    simp [h1, h2, h3]

theorem xor_one_of_odd (c : Nat) : (2 * c + 1) ^^^ 1 = 2 * c := by
  apply Nat.eq_of_testBit_eq
  intro i
  simp only [Nat.testBit_xor]
  cases i with
  | zero =>
    simp only [Nat.testBit_zero]
    have h0 : (2 * c) % 2 = 0 := by omega
    have h1 : (2 * c + 1) % 2 = 1 := by omega
    simp_all
  | succ n =>
    simp only [Nat.testBit_succ]
    have h1 : 2 * c / 2 = c := by omega
    have h2 : (2 * c + 1) / 2 = c := by omega
    have h3 : (1 : Nat) / 2 = 0 := by norm_num
    simp [h1, h2, h3]

theorem complNode_two_mul_add (c b : Nat) (hb : b < 2) :
    complNode (2 * c + b) = 2 * c + (1 - b) := by
  unfold complNode
  interval_cases b
  · simpa using xor_one_of_even c
  · simpa using xor_one_of_odd c

theorem addBucketArcs_eq (arcs : List GraphArc) (c0 c1 j : Nat) (norm : ℚ) :
    addBucketArcs arcs c0 c1 j norm =
      arcs ++ [fwdArc c0 c1 j norm arcs.length, bwdArc c0 c1 j norm arcs.length] := by
  simp [addBucketArcs, graph_add_arc, fwdArc, bwdArc]

theorem isMate_bwd_fwd (c0 c1 j : Nat) (norm : ℚ) (base : Nat) (hj : j < 4) :
    isMate (bwdArc c0 c1 j norm base) (fwdArc c0 c1 j norm base) := by
  refine ⟨?_, ?_, rfl, rfl⟩
  · show 2 * c1 + (1 - j % 2) = complNode (2 * c1 + j % 2)
    rw [complNode_two_mul_add c1 (j % 2) (by omega)]
  · show 2 * c0 + (1 - j / 2) = complNode (2 * c0 + j / 2)
    rw [complNode_two_mul_add c0 (j / 2) (by omega)]

theorem isMate_fwd_bwd (c0 c1 j : Nat) (norm : ℚ) (base : Nat) (hj : j < 4) :
    isMate (fwdArc c0 c1 j norm base) (bwdArc c0 c1 j norm base) := by
  refine ⟨?_, ?_, rfl, rfl⟩
  · show 2 * c0 + j / 2 = complNode (2 * c0 + (1 - j / 2))
    rw [complNode_two_mul_add c0 (1 - j / 2) (by omega)]
    omega
  · show 2 * c1 + j % 2 = complNode (2 * c1 + (1 - j % 2))
    rw [complNode_two_mul_add c1 (1 - j % 2) (by omega)]
    omega

theorem mateSymmetry_append_pair (arcs : List GraphArc) (x y : GraphArc)
    (hxy : isMate y x) (hyx : isMate x y) (h : mateSymmetry arcs) :
    mateSymmetry (arcs ++ [x, y]) := by
  intro a ha
  rcases List.mem_append.mp ha with ha | ha
  · obtain ⟨b, hb, hm⟩ := h a ha
    exact ⟨b, List.mem_append.mpr (Or.inl hb), hm⟩
  · rcases List.mem_cons.mp ha with rfl | ha
    · exact ⟨y, List.mem_append.mpr (Or.inr (by simp)), hxy⟩
    · rcases List.mem_cons.mp ha with rfl | ha
      · exact ⟨x, List.mem_append.mpr (Or.inr (by simp)), hyx⟩
      · exact absurd ha (List.not_mem_nil a)

theorem mateSymmetry_processBucket (minNorm qla : ℚ) (link : InterLink)
    (arcs : List GraphArc) (j : Nat) (hj : j < 4) (h : mateSymmetry arcs) :
    mateSymmetry (processBucket minNorm qla link arcs j) := by
  unfold processBucket
  split_ifs with hb h1 h2
  · exact h
  · rw [addBucketArcs_eq]
    exact mateSymmetry_append_pair _ _ _ (isMate_bwd_fwd _ _ _ _ _ hj)
      (isMate_fwd_bwd _ _ _ _ _ hj) h
  · exact h
  · exact h

theorem mateSymmetry_processLink (qb : ℚ → Nat → ℚ → ℚ) (minNorm la : ℚ)
    (arcs : List GraphArc) (link : InterLink) (h : mateSymmetry arcs) :
    mateSymmetry (processLink qb minNorm la arcs link) := by
  unfold processLink
  split
  · exact h
  · split
    · exact h
    · simp only [List.foldl_cons, List.foldl_nil]
      apply mateSymmetry_processBucket _ _ _ _ 3 (by omega)
      apply mateSymmetry_processBucket _ _ _ _ 2 (by omega)
      apply mateSymmetry_processBucket _ _ _ _ 1 (by omega)
      exact mateSymmetry_processBucket _ _ _ _ 0 (by omega) h

/-- C1: whenever `build_graph_from_links` adds a directed arc `u → v`
with weight `w` and paired id `p`, it also adds the mate arc
`complement(v) → complement(u)` (`complement(x) = x XOR 1`) with the same
weight `w` and the same paired id `p`; hence the graph it returns
satisfies the mated-arc symmetry invariant. -/
theorem build_graph_from_links_mate_symmetry (qb : ℚ → Nat → ℚ → ℚ)
    (links : List InterLink) (minNorm la : ℚ) :
    mateSymmetry (build_graph_from_links qb links minNorm la) := by
  unfold build_graph_from_links
  have key : ∀ (ls : List InterLink) (arcs : List GraphArc), mateSymmetry arcs →
      mateSymmetry (ls.foldl (processLink qb minNorm la) arcs) := by
    intro ls
    induction ls with
    | nil => intro arcs h; simpa using h
    | cons l ls ih =>
      intro arcs h
      simp only [List.foldl_cons]
      exact ih _ (mateSymmetry_processLink qb minNorm la arcs l h)
  exact key links [] (by intro a ha; exact absurd ha (List.not_mem_nil a))

theorem processBucket_pos (minNorm qla : ℚ) (link : InterLink) (arcs : List GraphArc)
    (j : Nat) (hb : Nat.testBit link.linkt j) (h1 : minNorm ≤ link.norms.getD j 0)
    (h2 : qla ≤ link.norms.getD j 0) :
    processBucket minNorm qla link arcs j =
      arcs ++ [fwdArc link.c0 link.c1 j (link.norms.getD j 0) arcs.length,
               bwdArc link.c0 link.c1 j (link.norms.getD j 0) arcs.length] := by
  unfold processBucket
  rw [if_pos hb, if_pos h1, if_neg (not_lt.mpr h2), addBucketArcs_eq]

theorem mem_processBucket_of_mem (minNorm qla : ℚ) (link : InterLink)
    (arcs : List GraphArc) (j : Nat) (a : GraphArc) (ha : a ∈ arcs) :
    a ∈ processBucket minNorm qla link arcs j := by
  unfold processBucket
  split_ifs
  · exact ha
  · rw [addBucketArcs_eq]
    exact List.mem_append.mpr (Or.inl ha)
  · exact ha
  · exact ha

theorem mem_foldl_processBucket_of_mem (minNorm qla : ℚ) (link : InterLink)
    (js : List Nat) :
    ∀ (arcs : List GraphArc) (a : GraphArc), a ∈ arcs →
      a ∈ js.foldl (processBucket minNorm qla link) arcs := by
  induction js with
  | nil => intro arcs a ha; simpa using ha
  | cons k ks ih =>
    intro arcs a ha
    simp only [List.foldl_cons]
    exact ih _ _ (mem_processBucket_of_mem minNorm qla link arcs k a ha)

theorem mem_foldl_processBucket (minNorm qla : ℚ) (link : InterLink) (js : List Nat) :
    ∀ (arcs : List GraphArc) (a : GraphArc),
      a ∈ js.foldl (processBucket minNorm qla link) arcs →
      a ∈ arcs ∨ ∃ k ∈ js, Nat.testBit link.linkt k ∧
        minNorm ≤ link.norms.getD k 0 ∧ qla ≤ link.norms.getD k 0 ∧
        ∃ base, a = fwdArc link.c0 link.c1 k (link.norms.getD k 0) base ∨
                a = bwdArc link.c0 link.c1 k (link.norms.getD k 0) base := by
  induction js with
  | nil => intro arcs a ha; exact Or.inl (by simpa using ha)
  | cons k ks ih =>
    intro arcs a ha
    simp only [List.foldl_cons] at ha
    rcases ih _ _ ha with hmem | ⟨k1, hk1, hrest⟩
    · revert hmem
      unfold processBucket
      split_ifs with hb h1 h2
      · exact fun hmem => Or.inl hmem
      · rw [addBucketArcs_eq]
        intro hmem
        rcases List.mem_append.mp hmem with hmem | hmem
        · exact Or.inl hmem
        · refine Or.inr ⟨k, List.mem_cons_self k ks, hb, h1, not_lt.mp h2, arcs.length, ?_⟩
          rcases List.mem_cons.mp hmem with rfl | hmem
          · exact Or.inl rfl
          · rcases List.mem_cons.mp hmem with rfl | hmem
            · exact Or.inr rfl
            · exact absurd hmem (List.not_mem_nil a)
      · exact fun hmem => Or.inl hmem
      · exact fun hmem => Or.inl hmem
    · exact Or.inr ⟨k1, List.mem_cons_of_mem k hk1, hrest⟩

theorem pair_mem_foldl_processBucket (minNorm qla : ℚ) (link : InterLink) (js : List Nat)
    (j : Nat) (hmem : j ∈ js) (hb : Nat.testBit link.linkt j)
    (h1 : minNorm ≤ link.norms.getD j 0) (h2 : qla ≤ link.norms.getD j 0) :
    ∀ arcs : List GraphArc, ∃ base,
      fwdArc link.c0 link.c1 j (link.norms.getD j 0) base ∈
        js.foldl (processBucket minNorm qla link) arcs ∧
      bwdArc link.c0 link.c1 j (link.norms.getD j 0) base ∈
        js.foldl (processBucket minNorm qla link) arcs := by
  induction js with
  | nil => exact absurd hmem (List.not_mem_nil j)
  | cons k ks ih =>
    intro arcs
    rcases List.mem_cons.mp hmem with rfl | hmem
    · refine ⟨arcs.length, ?_, ?_⟩ <;>
        · simp only [List.foldl_cons]
          apply mem_foldl_processBucket_of_mem
          rw [processBucket_pos minNorm qla link arcs j hb h1 h2]
          simp
    · obtain ⟨base, hf, hw⟩ := ih hmem (processBucket minNorm qla link arcs k)
      exact ⟨base, by simpa only [List.foldl_cons] using hf,
        by simpa only [List.foldl_cons] using hw⟩

theorem processLink_eq_foldl (qb : ℚ → Nat → ℚ → ℚ) (minNorm la : ℚ)
    (arcs : List GraphArc) (link : InterLink) (hn : link.n ≠ 0) (ht : link.linkt ≠ 0) :
    processLink qb minNorm la arcs link =
      [0, 1, 2, 3].foldl
        (processBucket minNorm (qb (99 / 100) link.n0 la / (link.n0 : ℚ)) link) arcs := by
  simp [processLink, hn, ht]

/-- C2: for every scaffold-pair record with a nonzero link count and every
orientation bucket `j` flagged in `linkt`, `build_graph_from_links` adds
the corresponding bidirected edge — two mated arcs sharing a paired id —
with weight `norms[j]` if and only if `norms[j] ≥ 0.1` (the `min_norm`
threshold `run_scaffolding` passes) and `norms[j] ≥ qla`, where
`qla = qbinom(.99, n0, la, 1, 0) / n0`; buckets failing either test
contribute no arcs. -/
theorem build_graph_bucket_edge_iff (qb : ℚ → Nat → ℚ → ℚ) (la : ℚ) (link : InterLink)
    (j : Nat) (hj : j < 4) (hn : link.n ≠ 0) (hc : link.c0 ≠ link.c1)
    (hb : Nat.testBit link.linkt j = true) :
    (∃ a ∈ processLink qb (1 / 10) la [] link,
       ∃ b ∈ processLink qb (1 / 10) la [] link,
         a.v = 2 * link.c0 + j / 2 ∧ a.w = 2 * link.c1 + j % 2 ∧
         b.v = 2 * link.c1 + (1 - j % 2) ∧ b.w = 2 * link.c0 + (1 - j / 2) ∧
         a.wt = link.norms.getD j 0 ∧ b.wt = link.norms.getD j 0 ∧
         b.linkId = a.linkId) ↔
      ((1 / 10 : ℚ) ≤ link.norms.getD j 0 ∧
        qb (99 / 100) link.n0 la / (link.n0 : ℚ) ≤ link.norms.getD j 0) := by
  have ht : link.linkt ≠ 0 := by
    intro h0
    rw [h0] at hb
    simp [Nat.zero_testBit] at hb
  rw [processLink_eq_foldl qb (1 / 10) la [] link hn ht]
  constructor
  · rintro ⟨a, ha, b, hb2, hav, haw, hbv, hbw, hawt, hbwt, hid⟩
    rcases mem_foldl_processBucket _ _ _ _ _ a ha with hnil | ⟨k, hk, hkb, hk1, hk2, base, hcase⟩
    · exact absurd hnil (List.not_mem_nil a)
    · have hk4 : k < 4 := by
        simp only [List.mem_cons, List.not_mem_nil, or_false] at hk
        omega
      rcases hcase with rfl | rfl
      · simp only [fwdArc] at hav haw
        have hkj : k = j := by omega
        subst hkj
        exact ⟨hk1, hk2⟩
      · exfalso
        simp only [bwdArc] at hav
        omega
  · rintro ⟨h1, h2⟩
    have hjmem : j ∈ [0, 1, 2, 3] := by
      simp only [List.mem_cons, List.not_mem_nil, or_false]
      omega
    obtain ⟨base, hf, hw⟩ := pair_mem_foldl_processBucket (1 / 10)
      (qb (99 / 100) link.n0 la / (link.n0 : ℚ)) link [0, 1, 2, 3] j hjmem hb h1 h2 []
    exact ⟨_, hf, _, hw, rfl, rfl, rfl, rfl, rfl, rfl, rfl⟩

theorem build_graph_bucket_edge_iff_witness :
    ((0 : Nat) < 4 ∧ linkW.n ≠ 0 ∧ linkW.c0 ≠ linkW.c1 ∧
      Nat.testBit linkW.linkt 0 = true) ∧
    ((∃ a ∈ processLink qbW (1 / 10) 0 [] linkW,
       ∃ b ∈ processLink qbW (1 / 10) 0 [] linkW,
         a.v = 2 * linkW.c0 + 0 / 2 ∧ a.w = 2 * linkW.c1 + 0 % 2 ∧
         b.v = 2 * linkW.c1 + (1 - 0 % 2) ∧ b.w = 2 * linkW.c0 + (1 - 0 / 2) ∧
         a.wt = linkW.norms.getD 0 0 ∧ b.wt = linkW.norms.getD 0 0 ∧
         b.linkId = a.linkId) ↔
      ((1 / 10 : ℚ) ≤ linkW.norms.getD 0 0 ∧
        qbW (99 / 100) linkW.n0 0 / (linkW.n0 : ℚ) ≤ linkW.norms.getD 0 0)) :=
  ⟨⟨by decide, by decide, by decide, by decide⟩,
    build_graph_bucket_edge_iff qbW 0 linkW 0 (by decide) (by decide) (by decide) (by decide)⟩

theorem pruneLoop_spec {α : Type} (ops : GraphOps α)
    (mono : ∀ x, ops.narc (prunePass ops x) ≤ ops.narc x) :
    ∀ (fuel : Nat) (g : α), ops.narc g < fuel →
      ∃ k, 0 < k ∧ pruneLoop ops fuel g = (prunePass ops)^[k] g ∧
        ops.narc ((prunePass ops)^[k] g) = ops.narc ((prunePass ops)^[k - 1] g) ∧
        ∀ j, j + 1 < k →
          ops.narc ((prunePass ops)^[j + 1] g) ≠ ops.narc ((prunePass ops)^[j] g) := by
  intro fuel
  induction fuel with
  | zero => intro g hg; exact absurd hg (Nat.not_lt_zero _)
  | succ f ih =>
    intro g hg
    by_cases heq : ops.narc (prunePass ops g) = ops.narc g
    · refine ⟨1, Nat.one_pos, ?_, ?_, ?_⟩
      · simp [pruneLoop, heq]
      · simpa [Function.iterate_one] using heq
      · intro j hj; omega
    · have hlt : ops.narc (prunePass ops g) < ops.narc g :=
        lt_of_le_of_ne (mono g) heq
      have hf : ops.narc (prunePass ops g) < f := by omega
      obtain ⟨k, hk, hloop, hfix, hprog⟩ := ih (prunePass ops g) hf
      have e1 : (prunePass ops)^[k] (prunePass ops g) = (prunePass ops)^[k + 1] g :=
        (Function.iterate_succ_apply (prunePass ops) k g).symm
      have e2 : (prunePass ops)^[k - 1] (prunePass ops g) = (prunePass ops)^[k] g := by
        conv_rhs => rw [show k = k - 1 + 1 by omega, Function.iterate_succ_apply]
      refine ⟨k + 1, by omega, ?_, ?_, ?_⟩
      · simp only [pruneLoop, if_neg heq]
        rw [hloop, e1]
      · rw [e1, e2] at hfix
        simpa [Nat.add_sub_cancel] using hfix
      · intro j hj
        cases j with
        | zero => simpa [Function.iterate_one] using heq
        | succ i =>
          have hi : i + 1 < k := by omega
          have := hprog i hi
          rw [Function.iterate_succ_apply (prunePass ops) (i + 1) g,
            Function.iterate_succ_apply (prunePass ops) i g]
          exact this

/-- C3: in `run_scaffolding`, the pruning cascade (simple filter, tip
trim, blunt trim, repeat trim, transitive reduction, directed and
undirected bubble popping, weak-edge trim, self-loop trim, in that
order) is repeated until a full pass leaves the arc count unchanged, and
only after that fixed point is reached is the ambiguous-edge trim
applied, exactly once.  The hypothesis records that trim passes never
increase the arc count (they only drop arcs). -/
theorem runPruning_fixpoint_then_ambiguous {α : Type} (ops : GraphOps α) (g : α)
    (mono : ∀ x, ops.narc (prunePass ops x) ≤ ops.narc x) :
    ∃ k, 0 < k ∧ runPruning ops g = ops.trimAmbiguous ((prunePass ops)^[k] g) ∧
      ops.narc ((prunePass ops)^[k] g) = ops.narc ((prunePass ops)^[k - 1] g) ∧
      ∀ j, j + 1 < k →
        ops.narc ((prunePass ops)^[j + 1] g) ≠ ops.narc ((prunePass ops)^[j] g) := by
  obtain ⟨k, hk, hloop, hfix, hprog⟩ :=
    pruneLoop_spec ops mono (ops.narc g + 1) g (Nat.lt_succ_self _)
  exact ⟨k, hk, by rw [runPruning, hloop], hfix, hprog⟩

theorem runPruning_fixpoint_then_ambiguous_witness :
    (∀ x : Nat, opsW.narc (prunePass opsW x) ≤ opsW.narc x) ∧
    (∃ k, 0 < k ∧ runPruning opsW 2 = opsW.trimAmbiguous ((prunePass opsW)^[k] 2) ∧
      opsW.narc ((prunePass opsW)^[k] 2) = opsW.narc ((prunePass opsW)^[k - 1] 2) ∧
      ∀ j, j + 1 < k →
        opsW.narc ((prunePass opsW)^[j + 1] 2) ≠ opsW.narc ((prunePass opsW)^[j] 2)) :=
  ⟨fun x => by simp only [opsW, prunePass]; omega,
    runPruning_fixpoint_then_ambiguous opsW 2
      (fun x => by simp only [opsW, prunePass]; omega)⟩

/-- C4 counterexample: with two configured resolutions and round 1 ending
in `ENOBND_ERR` (NOBANDS), `run_yahs` still attempts round 2 — the round
loop treats NOBANDS exactly like any other failed round and moves on, so
scaffolding is not terminated. -/
theorem nobands_does_not_end_scaffolding :
    roundsLog dC4 = [(1, ENOBND_ERR), (2, 0)] ∧ (2, 0) ∈ roundsLog dC4 := by
  constructor
  · rfl
  · decide

/-- C4 (amended): when a round's `run_scaffolding` returns `ENOBND_ERR`,
the driver abandons only that round — layout and success count `rc` are
unchanged — and proceeds with the next (coarser) resolution, exactly as
for other failure codes; the loop then finalizes whatever layout exists
once the rounds are exhausted. -/
theorem nobands_round_skipped (d : Driver) (fuel r rc : Nat) (layout : List Nat)
    (h1 : ¬ d.nr < r) (h2 : ¬(d.n50 layout < d.resolutions (r - 1) * 10 ∧ 0 < rc))
    (h3 : d.scaffold (r - 1) layout = ENOBND_ERR) :
    roundsLoopAux d (fuel + 1) r rc layout =
      (r, ENOBND_ERR) :: roundsLoopAux d fuel (r + 1) rc layout := by
  simp only [roundsLoopAux]
  rw [if_neg h1, if_neg h2, h3]
  simp [ENOBND_ERR]

theorem nobands_round_skipped_witness :
    (¬ dC4.nr < 1) ∧
    roundsLoopAux dC4 (2 + 1) 1 0 [] =
      (1, ENOBND_ERR) :: roundsLoopAux dC4 2 2 0 [] :=
  ⟨by decide, nobands_round_skipped dC4 2 1 0 [] (by decide) (by decide) (by decide)⟩

/-- C5: a round whose conservative memory estimate (intra, or inter after
subtracting the intra cost from the limit) exceeds the remaining RSS
limit while memory checking is enabled returns `ENOMEM_ERR` before
building that matrix; the driver then continues with the next (coarser)
resolution instead of aborting the run; and with memory checking
disabled the estimates are replaced by zero so a round never fails with
`ENOMEM_ERR`. -/
theorem nomem_skips_round (rssLimit estIntra estInter : Int) (normOk : Bool)
    (d : Driver) (fuel r rc : Nat) (layout : List Nat) :
    (0 ≤ rssLimit → rssLimit < estIntra →
      run_scaffolding_model rssLimit false estIntra estInter normOk = (ENOMEM_ERR, [])) ∧
    (0 ≤ rssLimit → 0 ≤ estIntra → estIntra ≤ rssLimit → normOk = true →
      rssLimit - estIntra < estInter →
      run_scaffolding_model rssLimit false estIntra estInter normOk =
        (ENOMEM_ERR, [BuildStep.intraBuilt])) ∧
    ((run_scaffolding_model rssLimit true estIntra estInter normOk).1 ≠ ENOMEM_ERR) ∧
    (¬ d.nr < r → ¬(d.n50 layout < d.resolutions (r - 1) * 10 ∧ 0 < rc) →
      d.scaffold (r - 1) layout = ENOMEM_ERR →
      roundsLoopAux d (fuel + 1) r rc layout =
        (r, ENOMEM_ERR) :: roundsLoopAux d fuel (r + 1) rc layout) := by
  refine ⟨?_, ?_, ?_, ?_⟩
  · intro h1 h2
    have e : run_scaffolding_model rssLimit false estIntra estInter normOk =
        (if (0 ≤ rssLimit ∧ rssLimit < estIntra) ∨ estIntra < 0 then (ENOMEM_ERR, [])
         else if normOk = false then (ENOBND_ERR, [BuildStep.intraBuilt])
         else if (0 ≤ rssLimit - estIntra ∧ rssLimit - estIntra < estInter) ∨
             estInter < 0 then (ENOMEM_ERR, [BuildStep.intraBuilt])
         else (0, [BuildStep.intraBuilt, BuildStep.interBuilt])) := rfl
    rw [e, if_pos (Or.inl ⟨h1, h2⟩)]
  · intro h1 h2 h3 h4 h5
    subst h4
    have hc1 : ¬((0 ≤ rssLimit ∧ rssLimit < estIntra) ∨ estIntra < 0) := by omega
    have hc3 : (0 ≤ rssLimit - estIntra ∧ rssLimit - estIntra < estInter) ∨
        estInter < 0 := by omega
    have e : run_scaffolding_model rssLimit false estIntra estInter true =
        (if (0 ≤ rssLimit ∧ rssLimit < estIntra) ∨ estIntra < 0 then (ENOMEM_ERR, [])
         else if (0 ≤ rssLimit - estIntra ∧ rssLimit - estIntra < estInter) ∨
             estInter < 0 then (ENOMEM_ERR, [BuildStep.intraBuilt])
         else (0, [BuildStep.intraBuilt, BuildStep.interBuilt])) := rfl
    rw [e, if_neg hc1, if_pos hc3]
  · have hc1 : ¬((0 ≤ rssLimit ∧ rssLimit < (0 : Int)) ∨ (0 : Int) < 0) := by omega
    have hc3 : ¬((0 ≤ rssLimit - 0 ∧ rssLimit - 0 < (0 : Int)) ∨ (0 : Int) < 0) := by
      omega
    have e : run_scaffolding_model rssLimit true estIntra estInter normOk =
        (if (0 ≤ rssLimit ∧ rssLimit < (0 : Int)) ∨ (0 : Int) < 0 then (ENOMEM_ERR, [])
         else if normOk = false then (ENOBND_ERR, [BuildStep.intraBuilt])
         else if (0 ≤ rssLimit - 0 ∧ rssLimit - 0 < (0 : Int)) ∨ (0 : Int) < 0 then
           (ENOMEM_ERR, [BuildStep.intraBuilt])
         else (0, [BuildStep.intraBuilt, BuildStep.interBuilt])) := rfl
    rw [e, if_neg hc1]
    cases normOk
    · rw [if_pos rfl]
      decide
    · rw [if_neg (by decide), if_neg hc3]
      decide
  · intro h1 h2 h3
    simp only [roundsLoopAux]
    rw [if_neg h1, if_neg h2, h3]
    simp [ENOMEM_ERR]

theorem nomem_skips_round_witness :
    (run_scaffolding_model 100 false 200 0 true = (ENOMEM_ERR, [])) ∧
    (run_scaffolding_model 100 false 60 50 true = (ENOMEM_ERR, [BuildStep.intraBuilt])) ∧
    ((run_scaffolding_model (-5) true 200 300 true).1 ≠ ENOMEM_ERR) ∧
    (roundsLoopAux dW (0 + 1) 1 0 [] = (1, ENOMEM_ERR) :: roundsLoopAux dW 0 2 0 []) :=
  ⟨(nomem_skips_round 100 200 0 true dW 0 1 0 []).1 (by decide) (by decide),
   (nomem_skips_round 100 60 50 true dW 0 1 0 []).2.1 (by decide) (by decide) (by decide)
     rfl (by decide),
   (nomem_skips_round (-5) 200 300 true dW 0 1 0 []).2.2.1,
   (nomem_skips_round 100 200 0 true dW 0 1 0 []).2.2.2 (by decide) (by decide) (by decide)⟩

/-- C6 counterexample: a run whose only scaffolding round ends for lack
of bands exits with code 0, not 14 — `run_yahs` discards the per-round
codes and returns 0 after the loop, and `main` returns that value, so 14
and 15 never become process exit codes. -/
theorem exit_code_not_nobands :
    roundsLog dC6 = [(1, ENOBND_ERR)] ∧
    run_yahs_model 100 dC6 = (0, [(1, ENOBND_ERR)]) ∧
    (run_yahs_model 100 dC6).1 ≠ ENOBND_ERR ∧
    (run_yahs_model 100 dC6).1 ≠ ENOMEM_ERR := by
  refine ⟨rfl, rfl, by decide, by decide⟩

/-- C6 (amended): the `run_yahs` result — which `main` returns as the
process exit code on this path — is 1 when the post-break sequence count
exceeds `MAX_N_SEQ` and 0 otherwise, including when rounds ended with
NOBANDS or NOMEM; `ENOBND_ERR` (14) and `ENOMEM_ERR` (15) are internal
`run_scaffolding` return codes, never process exit codes.  (Usage and
other fatal errors in `main` yield 1 separately.) -/
theorem run_yahs_exit_code (nseq : Nat) (d : Driver) :
    (run_yahs_model nseq d).1 = if MAX_N_SEQ < nseq then 1 else 0 := by
  unfold run_yahs_model
  split <;> rfl

/-- C7: if the post-break layout holds more than `MAX_N_SEQ = 45000`
sequences, `run_yahs` halts with the fatal result 1 before any
scaffolding round is attempted; with at most 45000 sequences the check
never fires and the rounds run. -/
theorem seq_limit_halts (nseq : Nat) (d : Driver) :
    (MAX_N_SEQ < nseq → run_yahs_model nseq d = (1, [])) ∧
    (nseq ≤ MAX_N_SEQ → run_yahs_model nseq d = (0, roundsLog d)) := by
  constructor
  · intro h
    simp [run_yahs_model, h]
  · intro h
    simp [run_yahs_model, Nat.not_lt.mpr h]

theorem seq_limit_halts_witness :
    (MAX_N_SEQ < 45001 ∧ run_yahs_model 45001 dC7 = (1, [])) ∧
    (45000 ≤ MAX_N_SEQ ∧ run_yahs_model 45000 dC7 = (0, roundsLog dC7)) :=
  ⟨⟨by decide, (seq_limit_halts 45001 dC7).1 (by decide)⟩,
   ⟨by decide, (seq_limit_halts 45000 dC7).2 (by decide)⟩⟩

/-- C9: supplying a seed layout via `-a` disables the initial contig
error-break stage even when `--no-contig-ec` is not given: with an AGP
argument, `contig_error_break` is never called and the provided AGP is
used directly as the starting layout (this already holds in `run_yahs`
itself, before the `main`-level override). -/
theorem agp_disables_contig_ec (noContigEc : Bool) :
    mainInitialLayout true noContigEc = InitAction.useInputAgp ∧
    runYahsInitialLayout true noContigEc = InitAction.useInputAgp ∧
    mainInitialLayout true noContigEc ≠ InitAction.contigErrorBreak := by
  cases noContigEc <;> exact ⟨rfl, rfl, by decide⟩

/-- C10: at the start of each round, when the assembly N50 is below ten
times the round's resolution, the loop ends scaffolding if at least one
earlier round succeeded (`rc > 0`), and otherwise only warns and
scaffolds anyway. -/
theorem n50_early_exit (d : Driver) (fuel r rc : Nat) (layout : List Nat)
    (h1 : ¬ d.nr < r) (h2 : d.n50 layout < d.resolutions (r - 1) * 10) :
    (0 < rc → roundsLoopAux d (fuel + 1) r rc layout = []) ∧
    (roundsLoopAux d (fuel + 1) r 0 layout =
      (r, d.scaffold (r - 1) layout) ::
        roundsLoopAux d fuel (r + 1)
          (if d.scaffold (r - 1) layout = 0 then 0 + 1 else 0)
          (if d.scaffold (r - 1) layout = 0 then layout ++ [r] else layout)) := by
  constructor
  · intro hrc
    simp only [roundsLoopAux]
    rw [if_neg h1, if_pos ⟨h2, hrc⟩]
  · simp only [roundsLoopAux]
    rw [if_neg h1, if_neg (fun h => absurd h.2 (Nat.lt_irrefl 0))]

theorem n50_early_exit_witness :
    ((¬ dC10.nr < 2) ∧ dC10.n50 [1] < dC10.resolutions 1 * 10) ∧
    (0 < 1 → roundsLoopAux dC10 (3 + 1) 2 1 [1] = []) ∧
    (roundsLoopAux dC10 (3 + 1) 2 0 [1] =
      (2, dC10.scaffold 1 [1]) ::
        roundsLoopAux dC10 3 3 (if dC10.scaffold 1 [1] = 0 then 0 + 1 else 0)
          (if dC10.scaffold 1 [1] = 0 then [1] ++ [2] else [1])) :=
  ⟨⟨by decide, by decide⟩,
   (n50_early_exit dC10 3 2 1 [1] (by decide) (by decide)).1,
   (n50_early_exit dC10 3 2 0 [1] (by decide) (by decide)).2⟩

theorem scanMotif_no_n (rest : List Char) :
    ∀ (acc : List Char) (nIdx : Option Nat),
      (∀ c ∈ rest, c.isAlpha = true) → (∀ c ∈ rest, nucl_toupper c ≠ 'N') →
      scanMotif acc acc.length nIdx rest = some (acc ++ rest.map nucl_toupper, nIdx) := by
  induction rest with
  | nil => intro acc nIdx _ _; simp [scanMotif]
  | cons c cs ih =>
    intro acc nIdx ha hn
    have hca : c.isAlpha = true := ha c (by simp)
    have hcn : nucl_toupper c ≠ 'N' := hn c (by simp)
    have step : scanMotif acc acc.length nIdx (c :: cs) =
        scanMotif (acc ++ [nucl_toupper c]) (acc.length + 1) nIdx cs := by
      simp [scanMotif, hca, hcn]
    rw [step]
    have hlen : acc.length + 1 = (acc ++ [nucl_toupper c]).length := by simp
    rw [hlen, ih (acc ++ [nucl_toupper c]) nIdx
      (fun x hx => ha x (List.mem_cons_of_mem c hx))
      (fun x hx => hn x (List.mem_cons_of_mem c hx))]
    simp

theorem scanMotif_pending_n (rest : List Char) :
    ∀ (acc : List Char) (i k : Nat),
      (∃ c ∈ rest, nucl_toupper c = 'N') →
      scanMotif acc i (some k) rest = none := by
  induction rest with
  | nil =>
    intro acc i k h
    obtain ⟨c, hc, _⟩ := h
    exact absurd hc (List.not_mem_nil c)
  | cons c cs ih =>
    intro acc i k h
    by_cases hca : c.isAlpha = false
    · simp [scanMotif, hca]
    · by_cases hcn : nucl_toupper c = 'N'
      · simp [scanMotif, hca, hcn]
      · obtain ⟨x, hx, hxn⟩ := h
        rcases List.mem_cons.mp hx with rfl | hx
        · exact absurd hxn hcn
        · have step : scanMotif acc i (some k) (c :: cs) =
              scanMotif (acc ++ [nucl_toupper c]) (i + 1) (some k) cs := by
            simp [scanMotif, hca, hcn]
          rw [step]
          exact ih _ _ _ ⟨x, hx, hxn⟩

theorem scanMotif_one_n (m1 : List Char) :
    ∀ (acc : List Char) (c : Char) (m2 : List Char),
      (∀ x ∈ m1, x.isAlpha = true) → (∀ x ∈ m1, nucl_toupper x ≠ 'N') →
      c.isAlpha = true → nucl_toupper c = 'N' →
      (∀ x ∈ m2, x.isAlpha = true) → (∀ x ∈ m2, nucl_toupper x ≠ 'N') →
      scanMotif acc acc.length none (m1 ++ c :: m2) =
        some (acc ++ (m1.map nucl_toupper ++ 'N' :: m2.map nucl_toupper),
          some (acc.length + m1.length)) := by
  induction m1 with
  | nil =>
    intro acc c m2 _ _ hca hcn ha2 hn2
    have step : scanMotif acc acc.length none ([] ++ c :: m2) =
        scanMotif (acc ++ ['N']) (acc.length + 1) (some acc.length) m2 := by
      simp [scanMotif, hca, hcn]
    rw [step]
    have hlen : acc.length + 1 = (acc ++ ['N']).length := by simp
    rw [hlen, scanMotif_no_n m2 (acc ++ ['N']) (some acc.length) ha2 hn2]
    simp
  | cons x m1' ih =>
    intro acc c m2 ha1 hn1 hca hcn ha2 hn2
    have hxa : x.isAlpha = true := ha1 x (by simp)
    have hxn : nucl_toupper x ≠ 'N' := hn1 x (by simp)
    have step : scanMotif acc acc.length none ((x :: m1') ++ c :: m2) =
        scanMotif (acc ++ [nucl_toupper x]) (acc.length + 1) none (m1' ++ c :: m2) := by
      simp [scanMotif, hxa, hxn]
    rw [step]
    have hlen : acc.length + 1 = (acc ++ [nucl_toupper x]).length := by simp
    rw [hlen, ih (acc ++ [nucl_toupper x]) c m2
      (fun y hy => ha1 y (List.mem_cons_of_mem x hy))
      (fun y hy => hn1 y (List.mem_cons_of_mem x hy)) hca hcn ha2 hn2]
    have hidx : (acc ++ [nucl_toupper x]).length + m1'.length =
        acc.length + (x :: m1').length := by
      simp
      omega
    rw [hidx]
    simp

theorem scanMotif_two_n (m1 : List Char) :
    ∀ (acc : List Char) (i : Nat) (c1 : Char) (m2 : List Char) (c2 : Char) (m3 : List Char),
      (∀ x ∈ m1 ++ c1 :: m2 ++ c2 :: m3, x.isAlpha = true) →
      nucl_toupper c1 = 'N' → nucl_toupper c2 = 'N' →
      scanMotif acc i none (m1 ++ c1 :: m2 ++ c2 :: m3) = none := by
  induction m1 with
  | nil =>
    intro acc i c1 m2 c2 m3 ha h1 h2
    have hca : c1.isAlpha = true := ha c1 (by simp)
    have step : scanMotif acc i none ([] ++ c1 :: m2 ++ c2 :: m3) =
        scanMotif (acc ++ ['N']) (i + 1) (some i) (m2 ++ c2 :: m3) := by
      simp [scanMotif, hca, h1]
    rw [step]
    exact scanMotif_pending_n _ _ _ _ ⟨c2, by simp, h2⟩
  | cons x m1' ih =>
    intro acc i c1 m2 c2 m3 ha h1 h2
    have hxa : x.isAlpha = true := ha x (by simp)
    by_cases hxn : nucl_toupper x = 'N'
    · have step : scanMotif acc i none ((x :: m1') ++ c1 :: m2 ++ c2 :: m3) =
          scanMotif (acc ++ ['N']) (i + 1) (some i) (m1' ++ c1 :: m2 ++ c2 :: m3) := by
        simp [scanMotif, hxa, hxn]
      rw [step]
      exact scanMotif_pending_n _ _ _ _ ⟨c1, by simp, h1⟩
    · have step : scanMotif acc i none ((x :: m1') ++ c1 :: m2 ++ c2 :: m3) =
          scanMotif (acc ++ [nucl_toupper x]) (i + 1) none (m1' ++ c1 :: m2 ++ c2 :: m3) := by
        simp [scanMotif, hxa, hxn]
      rw [step]
      exact ih _ _ _ _ _ _ (fun y hy => ha y (List.mem_cons_of_mem x hy)) h1 h2

theorem list_set_append_length (xs zs : List Char) (y v : Char) :
    (xs ++ y :: zs).set xs.length v = xs ++ v :: zs := by
  induction xs with
  | nil => rfl
  | cons a as ih => simp [List.set, ih]

theorem processMotif_of_scan_none (m : List Char)
    (h : scanMotif [] 0 none m = none) : processMotif m = none := by
  unfold processMotif
  rw [h]

theorem processMotif_of_scan_no_idx (m u : List Char)
    (h : scanMotif [] 0 none m = some (u, none)) : processMotif m = some [u] := by
  unfold processMotif
  rw [h]

theorem processMotif_of_scan_idx (m u : List Char) (n : Nat)
    (h : scanMotif [] 0 none m = some (u, some n)) :
    processMotif m = some [u.set n 'A', u.set n 'C', u.set n 'G', u.set n 'T'] := by
  unfold processMotif
  rw [h]

/-- C8 counterexample: the motif `ANN` is over `{A,C,G,T,N}`, and the
claim says each of its two `N`s is expanded into the four variants
(16 motifs, as the spec-literal expansion computes); but `main` rejects
any motif with more than one `N` as a fatal error, so no expansion
happens at all. -/
theorem motif_two_n_fatal :
    processMotif ['A', 'N', 'N'] = none ∧
    processEnzymes [['A', 'N', 'N']] = none ∧
    (specExpandMotif ['A', 'N', 'N']).length = 16 ∧
    processMotif ['A', 'N', 'N'] ≠ some (specExpandMotif ['A', 'N', 'N']) := by
  refine ⟨rfl, rfl, rfl, by decide⟩

/-- C8 (amended): each motif supplied via `-e` may contain at most one
`N`.  A motif without `N` passes through unchanged (upper-cased); a
motif with exactly one `N` is expanded into the four variants with the
`N` replaced by `A`, `C`, `G` and `T`, in that order; a motif with two
or more `N`s is rejected as a fatal error. -/
theorem processMotif_amended (m : List Char) (halpha : ∀ c ∈ m, c.isAlpha = true) :
    ((∀ c ∈ m, nucl_toupper c ≠ 'N') → processMotif m = some [m.map nucl_toupper]) ∧
    (∀ m1 c m2, m = m1 ++ c :: m2 → nucl_toupper c = 'N' →
      (∀ x ∈ m1, nucl_toupper x ≠ 'N') → (∀ x ∈ m2, nucl_toupper x ≠ 'N') →
      processMotif m = some
        [m1.map nucl_toupper ++ 'A' :: m2.map nucl_toupper,
         m1.map nucl_toupper ++ 'C' :: m2.map nucl_toupper,
         m1.map nucl_toupper ++ 'G' :: m2.map nucl_toupper,
         m1.map nucl_toupper ++ 'T' :: m2.map nucl_toupper]) ∧
    (∀ m1 c1 m2 c2 m3, m = m1 ++ c1 :: m2 ++ c2 :: m3 →
      nucl_toupper c1 = 'N' → nucl_toupper c2 = 'N' → processMotif m = none) := by
  refine ⟨?_, ?_, ?_⟩
  · intro hN
    have h := scanMotif_no_n m [] none halpha hN
    simp only [List.length_nil, List.nil_append] at h
    exact processMotif_of_scan_no_idx m _ h
  · intro m1 c m2 hm hcN h1 h2
    subst hm
    have ha1 : ∀ x ∈ m1, x.isAlpha = true := fun x hx => halpha x (by simp [hx])
    have hca : c.isAlpha = true := halpha c (by simp)
    have ha2 : ∀ x ∈ m2, x.isAlpha = true := fun x hx => halpha x (by simp [hx])
    have h := scanMotif_one_n m1 [] c m2 ha1 h1 hca hcN ha2 h2
    simp only [List.length_nil, List.nil_append, Nat.zero_add] at h
    rw [processMotif_of_scan_idx _ _ _ h]
    have hset : ∀ v : Char,
        (m1.map nucl_toupper ++ 'N' :: m2.map nucl_toupper).set m1.length v =
          m1.map nucl_toupper ++ v :: m2.map nucl_toupper := by
      intro v
      have e := list_set_append_length (m1.map nucl_toupper) (m2.map nucl_toupper) 'N' v
      rw [List.length_map] at e
      exact e
    rw [hset, hset, hset, hset]
  · intro m1 c1 m2 c2 m3 hm h1 h2
    subst hm
    exact processMotif_of_scan_none _ (scanMotif_two_n m1 [] 0 c1 m2 c2 m3 halpha h1 h2)

theorem processMotif_amended_witness :
    (∀ c ∈ ['G', 'C', 'n', 'C'], c.isAlpha = true) ∧
    processMotif ['G', 'C', 'n', 'C'] =
      some [['G', 'C', 'A', 'C'], ['G', 'C', 'C', 'C'], ['G', 'C', 'G', 'C'],
        ['G', 'C', 'T', 'C']] := by
  refine ⟨by decide, ?_⟩
  have h := (processMotif_amended ['G', 'C', 'n', 'C'] (by decide)).2.1
    ['G', 'C'] 'n' ['C'] rfl (by decide) (by decide) (by decide)
  rw [h]
  rfl
